import Mathlib

/-!
Verification of the recitation-alignment engine in
`src/services/advancedRecitationMatcher.ts`.

Modelling conventions:
* JS strings are `List Char` (one entry per Unicode code point); the raw
  `String` API is wrapped where a claim speaks about strings.
* JS numbers appearing in scores and thresholds are modelled as exact
  rationals `ℚ` (the spec states all formulas in real arithmetic).
* The mutable `session` field of the class becomes explicit state passing:
  each method is a function from the session (and the corpus held by the
  class) to the updated session plus its return value.
* `Array.prototype.sort` (guaranteed stable by the JS spec) is modelled by
  `List.mergeSort`, which is stable.
* `String.prototype.toLowerCase` is modelled by `Char.toLower` per code
  point (the ASCII range; the Arabic block is caseless, so the two agree on
  all inputs the engine feeds it).
-/

namespace Hafez

/-- Whitespace class of the JS regex `\s` and of `String.prototype.trim`. -/
def isJsWs (c : Char) : Bool :=
  c = ' ' || c = '\t' || c = '\n' || c.toNat = 0xB || c.toNat = 0xC || c = '\r' ||
  c.toNat = 0xA0 || c.toNat = 0x1680 || (0x2000 ≤ c.toNat && c.toNat ≤ 0x200A) ||
  c.toNat = 0x2028 || c.toNat = 0x2029 || c.toNat = 0x202F || c.toNat = 0x205F ||
  c.toNat = 0x3000 || c.toNat = 0xFEFF

/-- The combining marks removed by `.replace(/[ً-ْ]/g, '')`. -/
def isArabicDiacritic (c : Char) : Bool :=
  0x64B ≤ c.toNat && c.toNat ≤ 0x652

/-- The chained single-character `.replace` calls of `normalizeArabicText`:
alif variants to bare alif, ta marbuta to ha, ya to alif maqsura, Farsi kaf
to Arabic kaf. -/
def foldArabicChar (c : Char) : Char :=
  if c = 'إ' || c = 'أ' || c = 'آ' then 'ا'
  else if c = 'ة' then 'ه'
  else if c = 'ي' then 'ى'
  else if c = 'ک' then 'ك'
  else c

/-- Helper for `.replace(/\s+/g, ' ')`: the flag records whether the
previously scanned character belonged to a whitespace run (in which case
the run's single `' '` has already been emitted). -/
def collapseWsAux : Bool → List Char → List Char
  | _, [] => []
  | inRun, c :: cs =>
    if isJsWs c then
      if inRun then collapseWsAux true cs else ' ' :: collapseWsAux true cs
    else c :: collapseWsAux false cs

/-- `.replace(/\s+/g, ' ')`: every maximal whitespace run becomes one space. -/
def collapseWs (l : List Char) : List Char := collapseWsAux false l

/-- `String.prototype.trim`. -/
def trimWs (l : List Char) : List Char :=
  ((l.dropWhile (isJsWs ·)).reverse.dropWhile (isJsWs ·)).reverse

/-- `normalizeArabicText`, code-point level: strip diacritics, fold letter
variants, collapse whitespace, trim, lowercase - in the source's order. -/
def normalizeChars (l : List Char) : List Char :=
  (trimWs (collapseWs ((l.filter (fun c => !isArabicDiacritic c)).map foldArabicChar))).map
    Char.toLower

/-- `normalizeArabicText` on JS strings. -/
def normalizeArabicText (s : String) : String :=
  String.mk (normalizeChars s.data)

/-- `normalizedText.split(/\s+/).filter(w => w.length > 0)`: the accumulator
holds the (reversed) word currently being scanned. -/
def tokenizeAux : List Char → List Char → List (List Char)
  | [], acc => if acc.isEmpty then [] else [acc.reverse]
  | c :: cs, acc =>
    if isJsWs c then
      if acc.isEmpty then tokenizeAux cs [] else acc.reverse :: tokenizeAux cs []
    else tokenizeAux cs (c :: acc)

/-- Split a string into its maximal non-whitespace runs. -/
def tokenizeChars (l : List Char) : List (List Char) := tokenizeAux l []

/-- One row of the `levenshteinDistance` matrix, built left to right.
`prev` walks along the previous row (`prev.headD 0` is the diagonal
entry `matrix[i-1][j-1]`, the next entry is `matrix[i-1][j]`), `left` is
the entry `matrix[i][j-1]` just written. -/
def levRowAux (c2 : Char) : List Char → List Nat → Nat → List Nat
  | [], _, _ => []
  | c1 :: s1, prev, left =>
    let diag := prev.headD 0
    let above := prev.tail.headD 0
    let v := if c2 = c1 then diag else min (min (diag + 1) (left + 1)) (above + 1)
    v :: levRowAux c2 s1 prev.tail v

/-- `levenshteinDistance(str1, str2)`: row 0 is `[0..str1.length]`
(`matrix[0][j] = j`), row `i` starts with `i` (`matrix[i][0] = i`) and is
filled by `levRowAux`; the answer is `matrix[str2.length][str1.length]`,
the last entry of the final row. -/
def levenshteinDistance (s1 s2 : List Char) : Nat :=
  (s2.foldl
    (fun st c2 => (st.1 + 1, (st.1 + 1) :: levRowAux c2 s1 st.2 (st.1 + 1)))
    (0, List.range (s1.length + 1))).2.getLastD 0

/-- The classic unit-cost edit-distance recurrence that the matrix of
`levenshteinDistance` tabulates: `levRec s1 s2 i j` is the distance
between the first `j` characters of `s1` and the first `i` characters of
`s2`. -/
def levRec (s1 s2 : List Char) : Nat → Nat → Nat
  | 0, j => j
  | i + 1, 0 => i + 1
  | i + 1, j + 1 =>
    if s2.getD i ' ' = s1.getD j ' ' then levRec s1 s2 i j
    else min (min (levRec s1 s2 i j + 1) (levRec s1 s2 (i + 1) j + 1))
      (levRec s1 s2 i (j + 1) + 1)
termination_by i j => (i, j)

/-- `calculateSimilarity(str1, str2)`: normalized edit similarity, computed
on (longer, shorter) in that order. -/
def calculateSimilarity (s1 s2 : List Char) : ℚ :=
  let longer := if s2.length < s1.length then s1 else s2
  let shorter := if s2.length < s1.length then s2 else s1
  if longer.length = 0 then 1
  else ((longer.length : ℚ) - levenshteinDistance longer shorter) / longer.length

/-- `arabicWordMatch(word1, word2)`: false on a falsy (empty) argument;
then normalized equality, then - when both normal forms have more than two
characters - edit similarity at least `0.85`. -/
def arabicWordMatch (w1 w2 : List Char) : Bool :=
  if w1.isEmpty || w2.isEmpty then false
  else
    let n1 := normalizeChars w1
    let n2 := normalizeChars w2
    if n1 = n2 then true
    else if 2 < n1.length && 2 < n2.length then
      decide ((0.85 : ℚ) ≤ calculateSimilarity n1 n2)
    else false

/-- One row of the `longestCommonSubsequence` table, built left to right;
`prev` walks along the previous row as in `levRowAux`. -/
def lcsRowAux (w1 : List Char) : List (List Char) → List Nat → Nat → List Nat
  | [], _, _ => []
  | w2 :: a2, prev, left =>
    let diag := prev.headD 0
    let above := prev.tail.headD 0
    let v := if arabicWordMatch w1 w2 then diag + 1 else max above left
    v :: lcsRowAux w1 a2 prev.tail v

/-- The full `dp` table of `longestCommonSubsequence`: row 0 is all zeros,
row `i` is built from row `i-1` by `lcsRowAux` with `arr1[i-1]`. -/
def lcsTable (a1 a2 : List (List Char)) : List (List Nat) :=
  a1.foldl
    (fun rows w1 => rows ++ [0 :: lcsRowAux w1 a2 (rows.getLastD []) 0])
    [List.replicate (a2.length + 1) 0]

/-- The backtracking `while (i > 0 && j > 0)` loop of
`longestCommonSubsequence`, as fuel recursion (the fuel never runs out:
each iteration decreases `i + j`). `acc` collects the subsequence; the
loop prepends, so matches found later (at smaller indices) end up first. -/
def lcsBack (a1 a2 : List (List Char)) (dp : List (List Nat)) :
    Nat → Nat → Nat → List (List Char) → List (List Char)
  | 0, _, _, acc => acc
  | fuel + 1, i, j, acc =>
    if i = 0 ∨ j = 0 then acc
    else if arabicWordMatch (a1.getD (i - 1) []) (a2.getD (j - 1) []) then
      lcsBack a1 a2 dp fuel (i - 1) (j - 1) (a1.getD (i - 1) [] :: acc)
    else if (dp.getD i []).getD (j - 1) 0 < (dp.getD (i - 1) []).getD j 0 then
      lcsBack a1 a2 dp fuel (i - 1) j acc
    else
      lcsBack a1 a2 dp fuel i (j - 1) acc

/-- `longestCommonSubsequence(arr1, arr2)`: fill the table, then backtrack
from `(arr1.length, arr2.length)`. -/
def longestCommonSubsequence (a1 a2 : List (List Char)) : List (List Char) :=
  lcsBack a1 a2 (lcsTable a1 a2) (a1.length + a2.length) a1.length a2.length []

/-- `calculateSequenceMatch(transcribed, window)`. -/
def calculateSequenceMatch (t w : List (List Char)) : ℚ :=
  if t.length = 0 ∨ w.length = 0 then 0
  else ((longestCommonSubsequence t w).length : ℚ) / (max t.length w.length : ℚ)

/-- `calculateWordOverlap(transcribed, window)`: JS `Set` becomes `dedup`;
membership in the window set is exact string equality. -/
def calculateWordOverlap (t w : List (List Char)) : ℚ :=
  ((t.dedup.filter (fun x => w.dedup.contains x)).length : ℚ) /
    (max t.dedup.length w.dedup.length : ℚ)

/-- Concatenation with single spaces: `Array.prototype.join(' ')`. -/
def joinWords : List (List Char) → List Char
  | [] => []
  | [w] => w
  | w :: v :: ws => w ++ ' ' :: joinWords (v :: ws)

/-- `calculateEditScore(transcribed, window)`: normalized edit distance of
the joined word lists. -/
def calculateEditScore (t w : List (List Char)) : ℚ :=
  let jt := joinWords t
  let jw := joinWords w
  let maxLength := max jt.length jw.length
  if 0 < maxLength then 1 - (levenshteinDistance jt jw : ℚ) / (maxLength : ℚ) else 0

/-- `calculateAlignmentScore(transcribed, window)`: positional fuzzy
matches, earlier positions weighted higher, averaged over the hits. -/
def calculateAlignmentScore (t w : List (List Char)) : ℚ :=
  let minLength := min t.length w.length
  let hits := (List.range minLength).filter
    (fun i => arabicWordMatch (t.getD i []) (w.getD i []))
  let score := (hits.map (fun i => ((minLength - i : Nat) : ℚ) / (minLength : ℚ))).sum
  if 0 < hits.length then score / (hits.length : ℚ) else 0

/-- A verse, as delivered by the corpus loader (`quranParser`): 1-based
index within its sura and raw text. -/
structure Aya where
  index : Nat
  text : List Char
deriving DecidableEq, Repr

/-- A sura: its index and its ordered verses. -/
structure Sura where
  index : Nat
  ayas : List Aya
deriving DecidableEq, Repr

/-- The corpus (`QuranData`). -/
structure QuranData where
  suras : List Sura
deriving DecidableEq, Repr

/-- `AyahWindow`: a candidate span of verses with its texts and tokens. -/
structure AyahWindow where
  startAyah : Nat
  endAyah : Nat
  text : List Char
  normalizedText : List Char
  words : List (List Char)
deriving DecidableEq, Repr

/-- `MatchResult`. -/
structure MatchResult where
  windowIndex : Nat
  confidence : ℚ
  accuracy : ℚ
  matchedWords : Int
  totalWords : Nat
  startAyah : Nat
  endAyah : Nat
  alignmentScore : ℚ
deriving DecidableEq, Repr

/-- `RecitationSession`: the mutable session state of the matcher. -/
structure RecitationSession where
  suraIndex : Nat
  currentPosition : Nat
  windowSize : Nat
  confidenceThreshold : ℚ
  slidingWindows : List AyahWindow
  sessionHistory : List MatchResult
  lastSuccessfulMatch : Option MatchResult
  consecutiveFailures : Nat
  isActive : Bool
deriving DecidableEq, Repr

/-- Fallback verse for the (unreachable) empty-slice case of `mkWindow`. -/
def defaultAya : Aya := { index := 0, text := [] }

/-- The window pushed for loop indices `(i, L)` in `buildSlidingWindows`:
verses `sura.ayas.slice(i, i + L)`, their joined text, its normal form and
tokens. -/
def mkWindow (sura : Sura) (i L : Nat) : AyahWindow :=
  let windowAyas := (sura.ayas.drop i).take L
  let combinedText := joinWords (windowAyas.map (fun a => a.text))
  let normalizedText := normalizeChars combinedText
  { startAyah := (windowAyas.headD defaultAya).index
    endAyah := (windowAyas.getLastD defaultAya).index
    text := combinedText
    normalizedText := normalizedText
    words := tokenizeChars normalizedText }

/-- The nested loops of `buildSlidingWindows`: anchor `i` runs from
`Math.max(0, pos - radius - 1)` (truncated subtraction) up to
`Math.min(ayas.length, pos + radius) - 1`; the inner loop tries window
lengths `1..windowSize`, skipping windows that overrun the sura. -/
def windowsFor (sura : Sura) (pos windowSize : Nat) : List AyahWindow :=
  let radius := max 5 (windowSize * 2)
  let startPos := pos - radius - 1
  let endPos := min sura.ayas.length (pos + radius)
  (List.range' startPos (endPos - startPos)).flatMap (fun i =>
    ((List.range' 1 windowSize).filter (fun L => i + L ≤ sura.ayas.length)).map
      (fun L => mkWindow sura i L))

/-- `buildSlidingWindows()`: look up the session's sura and replace
`slidingWindows`; a missing sura leaves the session unchanged (the early
`return` fires before the field is cleared). -/
def buildSlidingWindows (q : QuranData) (s : RecitationSession) : RecitationSession :=
  match q.suras.find? (fun su => su.index == s.suraIndex) with
  | none => s
  | some sura => { s with slidingWindows := windowsFor sura s.currentPosition s.windowSize }

/-- `initializeSession(suraIndex, startingAyah = 1, windowSize = 3)`:
throws if the sura is missing, otherwise builds the fresh session and its
initial windows. -/
def initializeSession (q : QuranData) (suraIndex startingAyah windowSize : Nat) :
    Except String RecitationSession :=
  match q.suras.find? (fun su => su.index == suraIndex) with
  | none => .error s!"Sura {suraIndex} not found"
  | some _ => .ok (buildSlidingWindows q
      { suraIndex := suraIndex
        currentPosition := startingAyah
        windowSize := windowSize
        confidenceThreshold := 0.7
        slidingWindows := []
        sessionHistory := []
        lastSuccessfulMatch := none
        consecutiveFailures := 0
        isActive := true })

/-- `Math.round` for the nonnegative scores of this code. -/
def jsRound (q : ℚ) : Int := ⌊q + 1 / 2⌋

/-- The record returned by `scoreWindow` (before `windowIndex`,
`startAyah`, `endAyah` are filled in). -/
structure WindowScore where
  confidence : ℚ
  accuracy : ℚ
  matchedWords : Int
  totalWords : Nat
  alignmentScore : ℚ
deriving DecidableEq, Repr

/-- `scoreWindow(transcribedWords, window)`. -/
def scoreWindow (tw : List (List Char)) (w : AyahWindow) : WindowScore :=
  let sequenceMatch := calculateSequenceMatch tw w.words
  let overlapScore := calculateWordOverlap tw w.words
  let editScore := calculateEditScore tw w.words
  let alignmentScore := calculateAlignmentScore tw w.words
  { confidence := sequenceMatch * 0.5 + overlapScore * 0.3 + editScore * 0.2
    accuracy := sequenceMatch
    matchedWords := jsRound (sequenceMatch * tw.length)
    totalWords := tw.length
    alignmentScore := alignmentScore }

/-- The `MatchResult` pushed onto `windowScores` for window number `i`. -/
def mkCandidate (i : Nat) (w : AyahWindow) (sc : WindowScore) : MatchResult :=
  { windowIndex := i
    confidence := sc.confidence
    accuracy := sc.accuracy
    matchedWords := sc.matchedWords
    totalWords := sc.totalWords
    startAyah := w.startAyah
    endAyah := w.endAyah
    alignmentScore := sc.alignmentScore }

/-- The scoring loop of `processAudioChunk`: windows whose confidence
reaches the threshold become candidates, in iteration order, tagged with
their window index. -/
def candidateScores (th : ℚ) (tw : List (List Char)) : Nat → List AyahWindow → List MatchResult
  | _, [] => []
  | i, w :: rest =>
    let sc := scoreWindow tw w
    if th ≤ sc.confidence then mkCandidate i w sc :: candidateScores th tw (i + 1) rest
    else candidateScores th tw (i + 1) rest

/-- The combined ranking key `(confidence * 0.4) + (accuracy * 0.4) +
(alignmentScore * 0.2)` of the sort comparator. -/
def rankKey (r : MatchResult) : ℚ :=
  r.confidence * 0.4 + r.accuracy * 0.4 + r.alignmentScore * 0.2

/-- The sort comparator `(a, b) => scoreB - scoreA` as a stable-sort
precedence: `a` may stay before `b` iff its key is at least `b`'s. -/
def rankLe (a b : MatchResult) : Bool := decide (rankKey b ≤ rankKey a)

/-- `windowScores` after the `sort`: candidates in descending key order,
ties kept in generation order (JS `sort` is stable). -/
def rankedCandidates (s : RecitationSession) (tw : List (List Char)) : List MatchResult :=
  (candidateScores s.confidenceThreshold tw 0 s.slidingWindows).mergeSort rankLe

/-- `handleConsecutiveFailures()`: lower the threshold (floor `0.5`), widen
the window (cap `5`), fall back to the last successful match's start verse
or verse 1, rebuild. -/
def handleConsecutiveFailures (q : QuranData) (s : RecitationSession) : RecitationSession :=
  buildSlidingWindows q
    { s with
      confidenceThreshold := max 0.5 (s.confidenceThreshold - 0.1)
      windowSize := min 5 (s.windowSize + 1)
      currentPosition :=
        match s.lastSuccessfulMatch with
        | some m => m.startAyah
        | none => 1 }

/-- `processAudioChunk(transcribedText)`: the full per-utterance step.
`none` in the first component models the class's `session` field being
`null`. -/
def processAudioChunk (q : QuranData) (sess : Option RecitationSession) (t : List Char) :
    Option RecitationSession × Option MatchResult :=
  match sess with
  | none => (none, none)
  | some s =>
    if !s.isActive then (some s, none)
    else
      let tw := tokenizeChars (normalizeChars t)
      if tw.isEmpty then (some s, none)
      else
        match rankedCandidates s tw with
        | best :: _ =>
          (some (buildSlidingWindows q
            { s with
              lastSuccessfulMatch := some best
              currentPosition := best.endAyah + 1
              consecutiveFailures := 0
              sessionHistory := s.sessionHistory ++ [best] }), some best)
        | [] =>
          let s1 := { s with consecutiveFailures := s.consecutiveFailures + 1 }
          if 3 ≤ s1.consecutiveFailures then (some (handleConsecutiveFailures q s1), none)
          else (some s1, none)

/-- `jumpToPosition(ayahNumber)`. -/
def jumpToPosition (q : QuranData) (s : RecitationSession) (ayahNumber : Nat) :
    RecitationSession :=
  buildSlidingWindows q
    { s with
      currentPosition := ayahNumber
      consecutiveFailures := 0
      confidenceThreshold := 0.7 }

/-- `resetSession()`: note it does not rebuild the windows. -/
def resetSession (s : RecitationSession) : RecitationSession :=
  { s with
    consecutiveFailures := 0
    confidenceThreshold := 0.7
    windowSize := 3 }

/-- Adjacency invariant of whitespace-collapsed text: a whitespace
character is never followed by another one. -/
def wsStep (a b : Char) : Prop := isJsWs a = true → isJsWs b = false

/-- The session states reachable from `initializeSession` through any
sequence of `processAudioChunk`, `jumpToPosition` and `resetSession`
calls against the corpus `q`. -/
inductive Reach (q : QuranData) : RecitationSession → Prop where
  | init {suraIndex startingAyah windowSize : Nat} {s : RecitationSession} :
      initializeSession q suraIndex startingAyah windowSize = .ok s → Reach q s
  | step {s s' : RecitationSession} {t : List Char} {r : Option MatchResult} :
      Reach q s → processAudioChunk q (some s) t = (some s', r) → Reach q s'
  | jump {s : RecitationSession} (n : Nat) : Reach q s → Reach q (jumpToPosition q s n)
  | reset {s : RecitationSession} : Reach q s → Reach q (resetSession s)

/-- Concrete one-verse corpus used by the witnesses. -/
def ayaAB : Aya := { index := 1, text := "اب".data }

def suraOne : Sura := { index := 1, ayas := [ayaAB] }

def quranOne : QuranData := { suras := [suraOne] }

/-- The session produced by `initializeSession(1, 1, 3)` on `quranOne`. -/
def sessionOne : RecitationSession :=
  { suraIndex := 1
    currentPosition := 1
    windowSize := 3
    confidenceThreshold := 0.7
    slidingWindows := windowsFor suraOne 1 3
    sessionHistory := []
    lastSuccessfulMatch := none
    consecutiveFailures := 0
    isActive := true }

/-- The single window built around position 1 of the one-verse corpus. -/
def windowOne : AyahWindow := mkWindow suraOne 0 1

/-- `sessionOne` after two failed utterances: one more failure triggers
recovery. -/
def sessionTwo : RecitationSession := { sessionOne with consecutiveFailures := 2 }

/-- The match result produced for a perfect recitation of the verse. -/
def matchOne : MatchResult :=
  { windowIndex := 0
    confidence := 1
    accuracy := 1
    matchedWords := 1
    totalWords := 1
    startAyah := 1
    endAyah := 1
    alignmentScore := 1 }

/-- The score record of a perfect recitation of the verse. -/
def scoreOne : WindowScore :=
  { confidence := 1, accuracy := 1, matchedWords := 1, totalWords := 1, alignmentScore := 1 }

/-- The score record of unrelated garbage input. -/
def scoreZero : WindowScore :=
  { confidence := 0, accuracy := 0, matchedWords := 0, totalWords := 1, alignmentScore := 0 }

theorem char_toNat_inj {a b : Char} (h : a.toNat = b.toNat) : a = b := by
  rw [← Char.ofNat_toNat a, h, Char.ofNat_toNat]

theorem char_eq_iff {a b : Char} : a = b ↔ a.toNat = b.toNat :=
  ⟨fun h => by rw [h], char_toNat_inj⟩

theorem toNat_toLower (c : Char) :
    (Char.toLower c).toNat = if 65 ≤ c.toNat ∧ c.toNat ≤ 90 then c.toNat + 32 else c.toNat := by
  unfold Char.toLower
  simp only [ge_iff_le]
  split
  · rw [Char.ofNat, dif_pos (Or.inl (by omega))]
    rfl
  · rfl

theorem toLower_toLower (c : Char) : Char.toLower (Char.toLower c) = Char.toLower c := by
  apply char_toNat_inj
  simp only [toNat_toLower]
  split_ifs <;> omega

theorem isJsWs_iff {c : Char} :
    isJsWs c = true ↔
      c.toNat = 32 ∨ c.toNat = 9 ∨ c.toNat = 10 ∨ c.toNat = 11 ∨ c.toNat = 12 ∨
      c.toNat = 13 ∨ c.toNat = 160 ∨ c.toNat = 5760 ∨ (8192 ≤ c.toNat ∧ c.toNat ≤ 8202) ∨
      c.toNat = 8232 ∨ c.toNat = 8233 ∨ c.toNat = 8239 ∨ c.toNat = 8287 ∨
      c.toNat = 12288 ∨ c.toNat = 65279 := by
  have h1 : (' ' : Char).toNat = 32 := rfl
  have h2 : ('\t' : Char).toNat = 9 := rfl
  have h3 : ('\n' : Char).toNat = 10 := rfl
  have h4 : ('\r' : Char).toNat = 13 := rfl
  simp only [isJsWs, char_eq_iff, h1, h2, h3, h4, Bool.or_eq_true, Bool.and_eq_true,
    decide_eq_true_eq]
  omega

theorem isArabicDiacritic_iff {c : Char} :
    isArabicDiacritic c = true ↔ 1611 ≤ c.toNat ∧ c.toNat ≤ 1618 := by
  simp only [isArabicDiacritic, Bool.and_eq_true, decide_eq_true_eq]

theorem toNat_foldArabicChar (c : Char) :
    (foldArabicChar c).toNat =
      if c.toNat = 1573 ∨ c.toNat = 1571 ∨ c.toNat = 1570 then 1575
      else if c.toNat = 1577 then 1607
      else if c.toNat = 1610 then 1609
      else if c.toNat = 1705 then 1603
      else c.toNat := by
  have h1 : ('إ' : Char).toNat = 1573 := rfl
  have h2 : ('أ' : Char).toNat = 1571 := rfl
  have h3 : ('آ' : Char).toNat = 1570 := rfl
  have h4 : ('ة' : Char).toNat = 1577 := rfl
  have h5 : ('ي' : Char).toNat = 1610 := rfl
  have h6 : ('ک' : Char).toNat = 1705 := rfl
  simp only [foldArabicChar, char_eq_iff, h1, h2, h3, h4, h5, h6, Bool.or_eq_true,
    decide_eq_true_eq]
  split_ifs <;> first | rfl | omega

theorem foldArabicChar_eq_self {c : Char}
    (h : ¬(c.toNat = 1573 ∨ c.toNat = 1571 ∨ c.toNat = 1570 ∨ c.toNat = 1577 ∨
      c.toNat = 1610 ∨ c.toNat = 1705)) : foldArabicChar c = c := by
  apply char_toNat_inj
  rw [toNat_foldArabicChar]
  split_ifs <;> omega

theorem fold_toLower_fold (c : Char) :
    foldArabicChar (Char.toLower (foldArabicChar c)) = Char.toLower (foldArabicChar c) := by
  apply foldArabicChar_eq_self
  rw [toNat_toLower, toNat_foldArabicChar]
  split_ifs <;> omega

theorem isJsWs_toLower (c : Char) : isJsWs (Char.toLower c) = isJsWs c := by
  by_cases h : 65 ≤ c.toNat ∧ c.toNat ≤ 90
  · have h1 : (Char.toLower c).toNat = c.toNat + 32 := by rw [toNat_toLower, if_pos h]
    have hws : isJsWs (Char.toLower c) = false := by
      by_contra hx
      rw [Bool.not_eq_false] at hx
      have := isJsWs_iff.mp hx
      omega
    have hws' : isJsWs c = false := by
      by_contra hx
      rw [Bool.not_eq_false] at hx
      have := isJsWs_iff.mp hx
      omega
    rw [hws, hws']
  · have h1 : Char.toLower c = c := by
      apply char_toNat_inj
      rw [toNat_toLower, if_neg h]
    rw [h1]

theorem isArabicDiacritic_toLower_fold {c : Char} (h : isArabicDiacritic c = false) :
    isArabicDiacritic (Char.toLower (foldArabicChar c)) = false := by
  rw [← Bool.not_eq_true] at h ⊢
  intro hw
  apply h
  apply isArabicDiacritic_iff.mpr
  have := isArabicDiacritic_iff.mp hw
  rw [toNat_toLower, toNat_foldArabicChar] at this
  split_ifs at this <;> omega

theorem toLower_space : Char.toLower ' ' = ' ' := rfl

theorem fold_space : foldArabicChar ' ' = ' ' := rfl

theorem map_id_of {α : Type} {f : α → α} :
    ∀ l : List α, (∀ c ∈ l, f c = c) → l.map f = l
  | [], _ => rfl
  | c :: cs, h => by
    rw [List.map_cons, h c (List.mem_cons_self c cs),
      map_id_of cs (fun d hd => h d (List.mem_cons_of_mem c hd))]

theorem mem_collapseWsAux {c : Char} :
    ∀ (l : List Char) (b : Bool), c ∈ collapseWsAux b l → c = ' ' ∨ c ∈ l := by
  intro l
  induction l with
  | nil => intro b h; simp [collapseWsAux] at h
  | cons d ds ih =>
    intro b h
    unfold collapseWsAux at h
    by_cases hd : isJsWs d
    · rw [if_pos hd] at h
      cases b with
      | true =>
        rw [if_pos rfl] at h
        rcases ih true h with h' | h'
        · exact Or.inl h'
        · exact Or.inr (List.mem_cons_of_mem d h')
      | false =>
        rw [if_neg (by simp)] at h
        rcases List.mem_cons.mp h with h' | h'
        · exact Or.inl h'
        · rcases ih true h' with h'' | h''
          · exact Or.inl h''
          · exact Or.inr (List.mem_cons_of_mem d h'')
    · rw [if_neg hd] at h
      rcases List.mem_cons.mp h with h' | h'
      · exact Or.inr (h' ▸ List.mem_cons_self d ds)
      · rcases ih false h' with h'' | h''
        · exact Or.inl h''
        · exact Or.inr (List.mem_cons_of_mem d h'')

theorem ws_collapseWsAux_eq_space {c : Char} :
    ∀ (l : List Char) (b : Bool), c ∈ collapseWsAux b l → isJsWs c = true → c = ' ' := by
  intro l
  induction l with
  | nil => intro b h; simp [collapseWsAux] at h
  | cons d ds ih =>
    intro b h hws
    unfold collapseWsAux at h
    by_cases hd : isJsWs d
    · rw [if_pos hd] at h
      cases b with
      | true => exact ih true (by rwa [if_pos rfl] at h) hws
      | false =>
        rw [if_neg (by simp)] at h
        rcases List.mem_cons.mp h with h' | h'
        · exact h'
        · exact ih true h' hws
    · rw [if_neg hd] at h
      rcases List.mem_cons.mp h with h' | h'
      · exact absurd (h' ▸ hws) hd
      · exact ih false h' hws

theorem head?_collapseWsAux_true :
    ∀ (l : List Char) {c : Char}, (collapseWsAux true l).head? = some c → isJsWs c = false := by
  intro l
  induction l with
  | nil => intro c h; simp [collapseWsAux] at h
  | cons d ds ih =>
    intro c h
    unfold collapseWsAux at h
    by_cases hd : isJsWs d
    · rw [if_pos hd, if_pos rfl] at h
      exact ih h
    · rw [if_neg hd, List.head?_cons, Option.some_inj] at h
      rw [← h]
      exact Bool.not_eq_true _ ▸ hd

theorem chain'_collapseWsAux :
    ∀ (l : List Char) (b : Bool), List.Chain' wsStep (collapseWsAux b l) := by
  intro l
  induction l with
  | nil => intro b; simp [collapseWsAux]
  | cons d ds ih =>
    intro b
    unfold collapseWsAux
    by_cases hd : isJsWs d
    · rw [if_pos hd]
      cases b with
      | true => rw [if_pos rfl]; exact ih true
      | false =>
        rw [if_neg (by simp)]
        refine List.chain'_cons'.mpr ⟨fun y hy => fun _ => ?_, ih true⟩
        exact head?_collapseWsAux_true ds hy
    · rw [if_neg hd]
      refine List.chain'_cons'.mpr ⟨fun y _ => fun hws => absurd hws hd, ih false⟩

theorem collapseWsAux_eq_self :
    ∀ (l : List Char) (b : Bool),
      (∀ c ∈ l, isJsWs c = true → c = ' ') →
      List.Chain' wsStep l →
      (b = true → ∀ c, l.head? = some c → isJsWs c = false) →
      collapseWsAux b l = l := by
  intro l
  induction l with
  | nil => intro b _ _ _; rfl
  | cons d ds ih =>
    intro b hW1 hch hb
    obtain ⟨hstep, hch'⟩ := List.chain'_cons'.mp hch
    unfold collapseWsAux
    by_cases hd : isJsWs d
    · cases b with
      | true => exact absurd (hb rfl d rfl) (by simp [hd])
      | false =>
        rw [if_pos hd, if_neg (by simp)]
        have hds : collapseWsAux true ds = ds := by
          refine ih true (fun c hc => hW1 c (List.mem_cons_of_mem d hc)) hch' ?_
          intro _ c hc
          exact hstep c (by rw [hc]; rfl) hd
        rw [hds, hW1 d (List.mem_cons_self d ds) hd]
    · rw [if_neg hd]
      have hds : collapseWsAux false ds = ds :=
        ih false (fun c hc => hW1 c (List.mem_cons_of_mem d hc)) hch' (by simp)
      rw [hds]

theorem collapseWs_eq_self {l : List Char}
    (h1 : ∀ c ∈ l, isJsWs c = true → c = ' ') (h2 : List.Chain' wsStep l) :
    collapseWs l = l :=
  collapseWsAux_eq_self l false h1 h2 (by simp)

theorem trimWs_isPrefix_dropWhile (l : List Char) :
    trimWs l <+: l.dropWhile (isJsWs ·) := by
  unfold trimWs
  apply List.reverse_suffix.mp
  rw [List.reverse_reverse]
  exact List.dropWhile_suffix _

theorem trimWs_contiguous (l : List Char) : trimWs l <:+: l :=
  ((trimWs_isPrefix_dropWhile l).isInfix).trans (List.dropWhile_suffix _).isInfix

theorem head?_trimWs {l : List Char} {c : Char} (h : (trimWs l).head? = some c) :
    isJsWs c = false := by
  obtain ⟨t, ht⟩ := trimWs_isPrefix_dropWhile l
  cases htr : trimWs l with
  | nil => rw [htr] at h; simp at h
  | cons c0 rest =>
    rw [htr, List.head?_cons, Option.some_inj] at h
    rw [htr] at ht
    have hhead : (l.dropWhile (isJsWs ·)).head? = some c := by
      rw [← ht, List.cons_append, List.head?_cons, h]
    have hx := List.head?_dropWhile_not (isJsWs ·) l
    rw [hhead] at hx
    exact hx

theorem getLast?_trimWs {l : List Char} {c : Char} (h : (trimWs l).getLast? = some c) :
    isJsWs c = false := by
  unfold trimWs at h
  rw [List.getLast?_reverse] at h
  have hx := List.head?_dropWhile_not (isJsWs ·) (l.dropWhile (isJsWs ·)).reverse
  rw [h] at hx
  exact hx

theorem trimWs_eq_self {l : List Char}
    (hh : ∀ c, l.head? = some c → isJsWs c = false)
    (hl : ∀ c, l.getLast? = some c → isJsWs c = false) : trimWs l = l := by
  unfold trimWs
  have h1 : l.dropWhile (isJsWs ·) = l := by
    cases l with
    | nil => rfl
    | cons c cs => exact List.dropWhile_cons_of_neg (by simp [hh c rfl])
  rw [h1]
  have h2 : l.reverse.dropWhile (isJsWs ·) = l.reverse := by
    cases hrev : l.reverse with
    | nil => rfl
    | cons c cs =>
      have : l.getLast? = some c := by
        rw [List.getLast?_eq_head?_reverse, hrev, List.head?_cons]
      exact List.dropWhile_cons_of_neg (by simp [hl c this])
  rw [h2, List.reverse_reverse]

theorem mem_normalizeChars {c : Char} {l : List Char} (h : c ∈ normalizeChars l) :
    c = ' ' ∨ ∃ e, isArabicDiacritic e = false ∧ c = Char.toLower (foldArabicChar e) := by
  unfold normalizeChars at h
  rw [List.mem_map] at h
  obtain ⟨d, hd, rfl⟩ := h
  have hd2 : d ∈ collapseWs ((l.filter (fun c => !isArabicDiacritic c)).map foldArabicChar) :=
    List.IsInfix.mem hd (trimWs_contiguous _)
  rcases mem_collapseWsAux _ false hd2 with h' | h'
  · exact Or.inl (by rw [h', toLower_space])
  · rw [List.mem_map] at h'
    obtain ⟨e, he, rfl⟩ := h'
    rw [List.mem_filter] at he
    exact Or.inr ⟨e, by simpa using he.2, rfl⟩

theorem normalizeChars_ws_eq_space {c : Char} {l : List Char}
    (hmem : c ∈ normalizeChars l) (hws : isJsWs c = true) : c = ' ' := by
  unfold normalizeChars at hmem
  rw [List.mem_map] at hmem
  obtain ⟨d, hd, rfl⟩ := hmem
  have hd2 : d ∈ collapseWs ((l.filter (fun c => !isArabicDiacritic c)).map foldArabicChar) :=
    List.IsInfix.mem hd (trimWs_contiguous _)
  have hdws : isJsWs d = true := by rwa [isJsWs_toLower] at hws
  rw [ws_collapseWsAux_eq_space _ false hd2 hdws, toLower_space]

theorem normalizeChars_chain (l : List Char) : List.Chain' wsStep (normalizeChars l) := by
  unfold normalizeChars
  rw [List.chain'_map]
  have base := chain'_collapseWsAux
    ((l.filter (fun c => !isArabicDiacritic c)).map foldArabicChar) false
  have t := List.Chain'.infix base (trimWs_contiguous _)
  refine t.imp (fun a b hab => ?_)
  intro hw
  rw [isJsWs_toLower] at hw ⊢
  exact hab hw

theorem head?_normalizeChars {l : List Char} {c : Char}
    (h : (normalizeChars l).head? = some c) : isJsWs c = false := by
  unfold normalizeChars at h
  rw [List.head?_map] at h
  cases htr : (trimWs
      (collapseWs ((l.filter (fun c => !isArabicDiacritic c)).map foldArabicChar))).head? with
  | none => rw [htr] at h; simp at h
  | some d =>
    rw [htr] at h
    simp only [Option.map_some'] at h
    rw [← Option.some_inj.mp h, isJsWs_toLower]
    exact head?_trimWs htr

theorem getLast?_normalizeChars {l : List Char} {c : Char}
    (h : (normalizeChars l).getLast? = some c) : isJsWs c = false := by
  unfold normalizeChars at h
  rw [List.getLast?_map] at h
  cases htr : (trimWs
      (collapseWs ((l.filter (fun c => !isArabicDiacritic c)).map foldArabicChar))).getLast? with
  | none => rw [htr] at h; simp at h
  | some d =>
    rw [htr] at h
    simp only [Option.map_some'] at h
    rw [← Option.some_inj.mp h, isJsWs_toLower]
    exact getLast?_trimWs htr

theorem normalizeChars_idem (l : List Char) :
    normalizeChars (normalizeChars l) = normalizeChars l := by
  have hfilter : (normalizeChars l).filter (fun c => !isArabicDiacritic c) = normalizeChars l := by
    refine List.filter_eq_self.mpr (fun c hc => ?_)
    rcases mem_normalizeChars hc with h' | ⟨e, he, h'⟩
    · rw [h']; rfl
    · rw [h', Bool.not_eq_true', isArabicDiacritic_toLower_fold he]
  have hfold : (normalizeChars l).map foldArabicChar = normalizeChars l := by
    refine map_id_of _ (fun c hc => ?_)
    rcases mem_normalizeChars hc with h' | ⟨e, _, h'⟩
    · rw [h', fold_space]
    · rw [h', fold_toLower_fold]
  have hcoll : collapseWs (normalizeChars l) = normalizeChars l :=
    collapseWs_eq_self (fun c hc => normalizeChars_ws_eq_space hc) (normalizeChars_chain l)
  have htrim : trimWs (normalizeChars l) = normalizeChars l :=
    trimWs_eq_self (fun c hc => head?_normalizeChars hc) (fun c hc => getLast?_normalizeChars hc)
  have hlower : (normalizeChars l).map Char.toLower = normalizeChars l := by
    refine map_id_of _ (fun c hc => ?_)
    rcases mem_normalizeChars hc with h' | ⟨e, _, h'⟩
    · rw [h', toLower_space]
    · rw [h', toLower_toLower]
  calc normalizeChars (normalizeChars l)
      = (trimWs (collapseWs (((normalizeChars l).filter
          (fun c => !isArabicDiacritic c)).map foldArabicChar))).map Char.toLower := rfl
    _ = normalizeChars l := by rw [hfilter, hfold, hcoll, htrim, hlower]

/-- C6: text normalization is idempotent: normalizing an already normalized
string changes nothing. -/
theorem normalizeArabicText_idem (s : String) :
    normalizeArabicText (normalizeArabicText s) = normalizeArabicText s := by
  unfold normalizeArabicText
  rw [show (String.mk (normalizeChars s.data)).data = normalizeChars s.data from rfl,
    normalizeChars_idem]

theorem getD_of_lt {α : Type} (l : List α) (n : Nat) (d : α) (h : n < l.length) :
    l.getD n d = l[n] := by
  simp [List.getD_eq_getElem?_getD, List.getElem?_eq_getElem h]

theorem levRowAux_spec (s1 s2 : List Char) (i : Nat) :
    ∀ (k j0 : Nat), j0 + k = s1.length →
      levRowAux (s2.getD i ' ') (s1.drop j0)
        ((List.range' j0 (k + 1)).map (levRec s1 s2 i))
        (levRec s1 s2 (i + 1) j0) =
      (List.range' (j0 + 1) k).map (levRec s1 s2 (i + 1)) := by
  intro k
  induction k with
  | zero =>
    intro j0 hj
    rw [List.drop_eq_nil_of_le (by omega)]
    rfl
  | succ k ih =>
    intro j0 hj
    have hlt : j0 < s1.length := by omega
    rw [List.drop_eq_getElem_cons hlt, List.range'_succ, List.map_cons]
    have hrest : (List.range' (j0 + 1) (k + 1)).map (levRec s1 s2 i) =
        levRec s1 s2 i (j0 + 1) :: (List.range' (j0 + 2) k).map (levRec s1 s2 i) := by
      rw [List.range'_succ, List.map_cons]
    simp only [levRowAux, List.headD_cons, List.tail_cons, hrest]
    have hv : (if s2.getD i ' ' = s1[j0] then levRec s1 s2 i j0
        else min (min (levRec s1 s2 i j0 + 1) (levRec s1 s2 (i + 1) j0 + 1))
          (levRec s1 s2 i (j0 + 1) + 1)) = levRec s1 s2 (i + 1) (j0 + 1) := by
      conv_rhs => rw [levRec]
      rw [getD_of_lt s1 j0 ' ' hlt]
    rw [hv, ← hrest, ih (j0 + 1) (by omega)]
    rw [show k + 1 = k + 1 from rfl, List.range'_succ, List.map_cons]

theorem levFoldl_spec (s1 s2 : List Char) :
    ∀ (k i : Nat), i + k = s2.length →
      ((s2.drop i).foldl
        (fun st c2 => (st.1 + 1, (st.1 + 1) :: levRowAux c2 s1 st.2 (st.1 + 1)))
        (i, (List.range' 0 (s1.length + 1)).map (levRec s1 s2 i))) =
      (s2.length, (List.range' 0 (s1.length + 1)).map (levRec s1 s2 s2.length)) := by
  intro k
  induction k with
  | zero =>
    intro i hi
    rw [List.drop_eq_nil_of_le (by omega)]
    simp only [List.foldl_nil]
    rw [show i = s2.length from by omega]
  | succ k ih =>
    intro i hi
    have hlt : i < s2.length := by
      omega
    rw [List.drop_eq_getElem_cons hlt, List.foldl_cons]
    have hrow : (i + 1) :: levRowAux s2[i] s1
        ((List.range' 0 (s1.length + 1)).map (levRec s1 s2 i)) (i + 1) =
        (List.range' 0 (s1.length + 1)).map (levRec s1 s2 (i + 1)) := by
      have h0 : levRec s1 s2 (i + 1) 0 = i + 1 := by rw [levRec]
      have hA := levRowAux_spec s1 s2 i s1.length 0 (by omega)
      rw [List.drop_zero, Nat.zero_add, h0] at hA
      rw [← getD_of_lt s2 i ' ' hlt, hA]
      rw [List.range'_succ, List.map_cons, h0, Nat.zero_add]
    rw [hrow]
    exact ih (i + 1) (by omega)

theorem levenshteinDistance_eq_levRec (s1 s2 : List Char) :
    levenshteinDistance s1 s2 = levRec s1 s2 s2.length s1.length := by
  unfold levenshteinDistance
  have hinit : (List.range' 0 (s1.length + 1)).map (levRec s1 s2 0) =
      List.range (s1.length + 1) := by
    rw [List.range_eq_range']
    apply map_id_of
    intro c _
    rw [levRec]
  have h := levFoldl_spec s1 s2 s2.length 0 (by omega)
  rw [List.drop_zero, hinit] at h
  rw [h]
  rw [List.range'_concat]
  simp only [List.map_append, List.map_cons, List.map_nil]
  rw [List.getLastD_concat]
  rw [Nat.zero_add, Nat.one_mul]

theorem levRec_symm_bounded (s1 s2 : List Char) :
    ∀ (N i j : Nat), i + j ≤ N → levRec s1 s2 i j = levRec s2 s1 j i := by
  intro N
  induction N with
  | zero =>
    intro i j h
    have hi : i = 0 := by omega
    have hj : j = 0 := by omega
    subst hi
    subst hj
    rw [levRec, levRec]
  | succ N IH =>
    intro i j h
    match i, j with
    | 0, 0 => rw [levRec, levRec]
    | 0, j + 1 => rw [levRec, levRec]
    | i + 1, 0 => rw [levRec, levRec]
    | i + 1, j + 1 =>
      rw [levRec, levRec]
      rw [IH i j (by omega), IH i (j + 1) (by omega), IH (i + 1) j (by omega)]
      by_cases hc : s2.getD i ' ' = s1.getD j ' '
      · rw [if_pos hc, if_pos hc.symm]
      · rw [if_neg hc, if_neg (fun h => hc h.symm)]
        omega

theorem levRec_symm (s1 s2 : List Char) (i j : Nat) :
    levRec s1 s2 i j = levRec s2 s1 j i :=
  levRec_symm_bounded s1 s2 (i + j) i j (Nat.le_refl _)

theorem levenshteinDistance_symm (s1 s2 : List Char) :
    levenshteinDistance s1 s2 = levenshteinDistance s2 s1 := by
  rw [levenshteinDistance_eq_levRec, levenshteinDistance_eq_levRec, levRec_symm]

theorem calculateSimilarity_eq (s1 s2 : List Char) :
    calculateSimilarity s1 s2 =
      1 - (levenshteinDistance s1 s2 : ℚ) / ((max s1.length s2.length : Nat) : ℚ) := by
  unfold calculateSimilarity
  by_cases hlen : s2.length < s1.length
  · simp only [if_pos hlen]
    have hmax : max s1.length s2.length = s1.length := by omega
    rw [hmax]
    have h0 : s1.length ≠ 0 := by omega
    rw [if_neg h0]
    have hq : (s1.length : ℚ) ≠ 0 := Nat.cast_ne_zero.mpr h0
    rw [sub_div, div_self hq]
  · simp only [if_neg hlen]
    have hmax : max s1.length s2.length = s2.length := by omega
    rw [hmax, levenshteinDistance_symm s1 s2]
    by_cases h0 : s2.length = 0
    · rw [if_pos h0]
      have h1 : s1 = [] := List.length_eq_zero.mp (by omega)
      have h2 : s2 = [] := List.length_eq_zero.mp h0
      subst h1
      subst h2
      norm_num
    · rw [if_neg h0]
      have hq : (s2.length : ℚ) ≠ 0 := Nat.cast_ne_zero.mpr h0
      rw [sub_div, div_self hq]

/-- C4 counterexample: the claim fails at the pair of empty words. Both
normal forms are equal (empty), so the claimed characterization demands a
match, but `arabicWordMatch` returns false: the `!word1 || !word2` guard
rejects empty (falsy) strings before normalization is consulted. -/
theorem arabicWordMatch_claim_counterexample :
    ¬ (arabicWordMatch [] [] = true ↔
      (normalizeChars [] = normalizeChars [] ∨
        (2 < (normalizeChars ([] : List Char)).length ∧
          2 < (normalizeChars ([] : List Char)).length ∧
          (0.85 : ℚ) ≤ 1 -
            (levenshteinDistance (normalizeChars []) (normalizeChars []) : ℚ) /
            ((max (normalizeChars ([] : List Char)).length
              (normalizeChars ([] : List Char)).length : Nat) : ℚ)))) := by
  intro h
  have h2 := h.mpr (Or.inl rfl)
  have h3 : arabicWordMatch [] [] = false := rfl
  rw [h3] at h2
  exact Bool.false_ne_true h2

/-- C4 (amended): the fuzzy word match returns true iff both words are
non-empty (the code's falsy-string guard, which the claim omitted) and
either the normal forms are equal, or both normal forms are longer than
two characters and `1 - levenshtein/max(len, len)` on the normal forms is
at least 0.85, with `levenshtein` the classic unit-cost edit distance. -/
theorem arabicWordMatch_iff (w1 w2 : List Char) :
    arabicWordMatch w1 w2 = true ↔
      (w1 ≠ [] ∧ w2 ≠ [] ∧
        (normalizeChars w1 = normalizeChars w2 ∨
          (2 < (normalizeChars w1).length ∧ 2 < (normalizeChars w2).length ∧
            (0.85 : ℚ) ≤ 1 -
              (levenshteinDistance (normalizeChars w1) (normalizeChars w2) : ℚ) /
              ((max (normalizeChars w1).length (normalizeChars w2).length : Nat) : ℚ)))) := by
  unfold arabicWordMatch
  cases hw1 : w1.isEmpty with
  | true =>
    simp only [Bool.true_or, if_true]
    simp [List.isEmpty_iff.mp hw1]
  | false =>
    cases hw2 : w2.isEmpty with
    | true =>
      simp only [Bool.or_true, if_true]
      simp [List.isEmpty_iff.mp hw2]
    | false =>
      simp only [Bool.or_self]
      rw [if_neg Bool.false_ne_true]
      have hne1 : w1 ≠ [] := by
        intro h
        rw [h] at hw1
        simp at hw1
      have hne2 : w2 ≠ [] := by
        intro h
        rw [h] at hw2
        simp at hw2
      by_cases heq : normalizeChars w1 = normalizeChars w2
      · rw [if_pos heq]
        simp [hne1, hne2, heq]
      · rw [if_neg heq]
        by_cases hlen : 2 < (normalizeChars w1).length ∧ 2 < (normalizeChars w2).length
        · have hb : (decide (2 < (normalizeChars w1).length) &&
              decide (2 < (normalizeChars w2).length)) = true := by
            simp [hlen.1, hlen.2]
          rw [hb, if_pos rfl, decide_eq_true_eq, calculateSimilarity_eq]
          constructor
          · intro hsim
            exact ⟨hne1, hne2, Or.inr ⟨hlen.1, hlen.2, hsim⟩⟩
          · rintro ⟨-, -, h | ⟨-, -, hsim⟩⟩
            · exact absurd h heq
            · exact hsim
        · have hb : (decide (2 < (normalizeChars w1).length) &&
              decide (2 < (normalizeChars w2).length)) = false := by
            rcases Decidable.not_and_iff_or_not.mp hlen with h | h <;> simp [h]
          rw [hb, if_neg Bool.false_ne_true]
          constructor
          · intro h
            exact absurd h Bool.false_ne_true
          · rintro ⟨-, -, h | ⟨ha, hbb, -⟩⟩
            · exact absurd h heq
            · exact absurd ⟨ha, hbb⟩ hlen

/-- C4: the amended word-match characterization (the empty-word guard made
explicit), together with the refinement that the matrix filled by
`levenshteinDistance` computes the classic unit-cost edit-distance
recurrence `levRec`. -/
theorem arabicWordMatch_spec :
    (∀ w1 w2 : List Char, arabicWordMatch w1 w2 = true ↔
      (w1 ≠ [] ∧ w2 ≠ [] ∧
        (normalizeChars w1 = normalizeChars w2 ∨
          (2 < (normalizeChars w1).length ∧ 2 < (normalizeChars w2).length ∧
            (0.85 : ℚ) ≤ 1 -
              (levenshteinDistance (normalizeChars w1) (normalizeChars w2) : ℚ) /
              ((max (normalizeChars w1).length (normalizeChars w2).length : Nat) : ℚ))))) ∧
    (∀ s1 s2 : List Char, levenshteinDistance s1 s2 = levRec s1 s2 s2.length s1.length) :=
  ⟨arabicWordMatch_iff, levenshteinDistance_eq_levRec⟩

theorem tokenizeAux_ne_nil :
    ∀ (l acc : List Char), ∀ w ∈ tokenizeAux l acc, w ≠ [] := by
  intro l
  induction l with
  | nil =>
    intro acc w hw
    unfold tokenizeAux at hw
    by_cases hacc : acc.isEmpty
    · rw [if_pos hacc] at hw
      simp at hw
    · rw [if_neg hacc] at hw
      rw [List.mem_singleton] at hw
      subst hw
      intro hrev
      exact hacc (by simp [List.isEmpty_iff, ← List.reverse_eq_nil_iff, hrev])
  | cons c cs ih =>
    intro acc w hw
    unfold tokenizeAux at hw
    by_cases hc : isJsWs c
    · rw [if_pos hc] at hw
      by_cases hacc : acc.isEmpty
      · rw [if_pos hacc] at hw
        exact ih [] w hw
      · rw [if_neg hacc] at hw
        rcases List.mem_cons.mp hw with hw' | hw'
        · subst hw'
          intro hrev
          exact hacc (by simp [List.isEmpty_iff, ← List.reverse_eq_nil_iff, hrev])
        · exact ih [] w hw'
    · rw [if_neg hc] at hw
      exact ih (c :: acc) w hw

theorem tokenizeChars_ne_nil (l : List Char) : ∀ w ∈ tokenizeChars l, w ≠ [] :=
  fun w hw => tokenizeAux_ne_nil l [] w hw

theorem arabicWordMatch_self {w : List Char} (h : w ≠ []) : arabicWordMatch w w = true := by
  unfold arabicWordMatch
  have hem : w.isEmpty = false := by
    cases w with
    | nil => exact absurd rfl h
    | cons c cs => rfl
  rw [hem, Bool.or_self, if_neg Bool.false_ne_true, if_pos rfl]

theorem lcsBack_diag (a : List (List Char)) (dp : List (List Nat))
    (hw : ∀ w ∈ a, w ≠ []) :
    ∀ (i fuel : Nat) (acc : List (List Char)), i ≤ a.length → i ≤ fuel →
      lcsBack a a dp fuel i i acc = a.take i ++ acc := by
  intro i
  induction i with
  | zero =>
    intro fuel acc _ _
    cases fuel with
    | zero => rfl
    | succ f =>
      unfold lcsBack
      rw [if_pos (Or.inl rfl)]
      rfl
  | succ i ih =>
    intro fuel acc hi hfuel
    obtain ⟨f, rfl⟩ : ∃ f, fuel = f + 1 := ⟨fuel - 1, by omega⟩
    unfold lcsBack
    rw [if_neg (by omega : ¬(i + 1 = 0 ∨ i + 1 = 0))]
    have hsub : i + 1 - 1 = i := by omega
    rw [hsub]
    have hilen : i < a.length := by omega
    have hget : a.getD i [] = a[i] := getD_of_lt a i [] hilen
    have hmem : a[i] ∈ a := List.getElem_mem _
    rw [hget, if_pos (arabicWordMatch_self (hw _ hmem))]
    rw [ih f (a[i] :: acc) (by omega) (by omega)]
    have htake : a.take (i + 1) = a.take i ++ [a[i]] := by
      rw [List.take_succ, List.getElem?_eq_getElem hilen]
      rfl
    rw [htake, List.append_assoc]
    rfl

theorem longestCommonSubsequence_self (a : List (List Char)) (hw : ∀ w ∈ a, w ≠ []) :
    longestCommonSubsequence a a = a := by
  unfold longestCommonSubsequence
  rw [lcsBack_diag a _ hw a.length (a.length + a.length) [] (Nat.le_refl _) (by omega),
    List.take_length, List.append_nil]

/-- C7: scoring a verse's own normalized, tokenized, non-empty text against
a window that holds exactly that text yields a perfect sequence match and
perfect accuracy (the fuzzy LCS of a word list with itself is the whole
list). -/
theorem selfScore_perfect (t : List Char) (w : AyahWindow)
    (hwords : w.words = tokenizeChars (normalizeChars t))
    (hne : w.words ≠ []) :
    calculateSequenceMatch w.words w.words = 1 ∧ (scoreWindow w.words w).accuracy = 1 := by
  have hx : ∀ x ∈ w.words, x ≠ [] := by
    rw [hwords]
    exact tokenizeChars_ne_nil _
  have hlcs := longestCommonSubsequence_self w.words hx
  have hlen : w.words.length ≠ 0 := fun h => hne (List.length_eq_zero.mp h)
  have hseq : calculateSequenceMatch w.words w.words = 1 := by
    unfold calculateSequenceMatch
    rw [if_neg (by omega : ¬(w.words.length = 0 ∨ w.words.length = 0)), hlcs, max_self,
      div_self (Nat.cast_ne_zero.mpr hlen)]
  exact ⟨hseq, hseq⟩

theorem mkWindow_span (sura : Sura) (i L : Nat)
    (hidx : ∀ (k : Nat) (h : k < sura.ayas.length), (sura.ayas.get ⟨k, h⟩).index = k + 1)
    (hL : 1 ≤ L) (hle : i + L ≤ sura.ayas.length) :
    (mkWindow sura i L).startAyah = i + 1 ∧ (mkWindow sura i L).endAyah = i + L := by
  have hi : i < sura.ayas.length := by omega
  have hlen : ((sura.ayas.drop i).take L).length = L := by
    rw [List.length_take, List.length_drop]
    omega
  have hhead : ((sura.ayas.drop i).take L).headD defaultAya = sura.ayas.get ⟨i, hi⟩ := by
    rw [List.headD_eq_head?_getD, List.head?_eq_getElem?, List.getElem?_take_of_lt (by omega),
      List.getElem?_drop, Nat.add_zero, List.getElem?_eq_getElem hi]
    rfl
  have hlast : ((sura.ayas.drop i).take L).getLastD defaultAya =
      sura.ayas.get ⟨i + (L - 1), by omega⟩ := by
    have h1 : ((sura.ayas.drop i).take L).getLast? =
        some (sura.ayas.get ⟨i + (L - 1), by omega⟩) := by
      rw [List.getLast?_eq_getElem?]
      simp only [hlen]
      rw [List.getElem?_take_of_lt (by omega), List.getElem?_drop,
        List.getElem?_eq_getElem (show i + (L - 1) < sura.ayas.length by omega)]
      rfl
    rw [List.getLastD_eq_getLast?, h1]
    rfl
  constructor
  · show (((sura.ayas.drop i).take L).headD defaultAya).index = i + 1
    rw [hhead, hidx i hi]
  · show (((sura.ayas.drop i).take L).getLastD defaultAya).index = i + L
    rw [hlast, hidx (i + (L - 1)) (by omega)]
    omega

theorem mem_windowsFor {sura : Sura} {pos windowSize : Nat} {w : AyahWindow} :
    w ∈ windowsFor sura pos windowSize ↔
      ∃ i L, (pos - (max 5 (windowSize * 2)) - 1 ≤ i ∧
          i < min sura.ayas.length (pos + max 5 (windowSize * 2))) ∧
        (1 ≤ L ∧ L < 1 + windowSize ∧ i + L ≤ sura.ayas.length) ∧
        w = mkWindow sura i L := by
  unfold windowsFor
  simp only [List.mem_flatMap, List.mem_map, List.mem_filter, List.mem_range',
    decide_eq_true_eq]
  constructor
  · rintro ⟨i, ⟨k, hk, rfl⟩, L, ⟨⟨j, hj, rfl⟩, hle⟩, rfl⟩
    exact ⟨_, _, ⟨by omega, by omega⟩, ⟨by omega, by omega, hle⟩, rfl⟩
  · rintro ⟨i, L, ⟨hi1, hi2⟩, ⟨hL1, hL2, hle⟩, rfl⟩
    refine ⟨i, ⟨i - (pos - (max 5 (windowSize * 2)) - 1), by omega, by omega⟩,
      L, ⟨⟨L - 1, by omega, by omega⟩, hle⟩, rfl⟩

/-- C5: under the corpus invariant (1-based contiguous verse indices), the
window builder produces exactly the spans `(s, e)` with `1 ≤ s ≤ e ≤
suraLength`, window length at most `windowSize`, and `s` within
`max 5 (windowSize * 2)` verses of `currentPosition`, clipped to the sura;
and it produces each such span exactly once. -/
theorem windowsFor_spec (sura : Sura) (pos windowSize : Nat)
    (hidx : ∀ (k : Nat) (h : k < sura.ayas.length), (sura.ayas.get ⟨k, h⟩).index = k + 1) :
    (∀ s e : Nat,
      (∃ w ∈ windowsFor sura pos windowSize, w.startAyah = s ∧ w.endAyah = e) ↔
        (1 ≤ s ∧ s ≤ e ∧ e ≤ sura.ayas.length ∧ e + 1 ≤ s + windowSize ∧
          pos ≤ s + max 5 (windowSize * 2) ∧ s ≤ pos + max 5 (windowSize * 2))) ∧
    ((windowsFor sura pos windowSize).map (fun w => (w.startAyah, w.endAyah))).Nodup := by
  constructor
  · intro s e
    constructor
    · rintro ⟨w, hw, hs, he⟩
      obtain ⟨i, L, ⟨hi1, hi2⟩, ⟨hL1, hL2, hle⟩, rfl⟩ := mem_windowsFor.mp hw
      obtain ⟨hstart, hend⟩ := mkWindow_span sura i L hidx hL1 hle
      rw [hstart] at hs
      rw [hend] at he
      omega
    · rintro ⟨hs1, hse, hel, hws, hr1, hr2⟩
      refine ⟨mkWindow sura (s - 1) (e - s + 1), mem_windowsFor.mpr
        ⟨s - 1, e - s + 1, ⟨by omega, by omega⟩, ⟨by omega, by omega, by omega⟩, rfl⟩, ?_⟩
      obtain ⟨hstart, hend⟩ := mkWindow_span sura (s - 1) (e - s + 1) hidx (by omega) (by omega)
      rw [hstart, hend]
      omega
  · unfold windowsFor
    rw [List.map_flatMap]
    rw [List.nodup_flatMap]
    constructor
    · intro i _
      rw [List.map_map]
      refine List.Nodup.map_on ?_ ((List.nodup_range' 1 windowSize 1 (by simp)).filter _)
      intro L1 h1 L2 h2 heq
      rw [List.mem_filter, List.mem_range'] at h1 h2
      obtain ⟨⟨j1, hj1, hL1⟩, h1d⟩ := h1
      obtain ⟨⟨j2, hj2, hL2⟩, h2d⟩ := h2
      simp only [decide_eq_true_eq] at h1d h2d
      have hs1 := mkWindow_span sura i L1 hidx (by omega) h1d
      have hs2 := mkWindow_span sura i L2 hidx (by omega) h2d
      simp only [Function.comp_apply] at heq
      have h3 := congrArg Prod.snd heq
      simp only at h3
      rw [hs1.2, hs2.2] at h3
      omega
    · have hpw := List.pairwise_lt_range'
        (pos - (max 5 (windowSize * 2)) - 1)
        (min sura.ayas.length (pos + max 5 (windowSize * 2)) -
          (pos - (max 5 (windowSize * 2)) - 1)) 1 (by simp)
      refine hpw.imp ?_
      intro a b hab
      simp only [Function.onFun, List.disjoint_left]
      intro x hxa hxb
      rw [List.map_map, List.mem_map] at hxa hxb
      obtain ⟨La, hLa, hxa'⟩ := hxa
      obtain ⟨Lb, hLb, hxb'⟩ := hxb
      rw [List.mem_filter, List.mem_range'] at hLa hLb
      obtain ⟨⟨ja, hja, hLa'⟩, had⟩ := hLa
      obtain ⟨⟨jb, hjb, hLb'⟩, hbd⟩ := hLb
      simp only [decide_eq_true_eq] at had hbd
      have hsa := mkWindow_span sura a La hidx (by omega) had
      have hsb := mkWindow_span sura b Lb hidx (by omega) hbd
      have h1 : x.fst = a + 1 := by
        rw [← hxa']
        simpa using hsa.1
      have h2 : x.fst = b + 1 := by
        rw [← hxb']
        simpa using hsb.1
      omega

theorem buildSlidingWindows_preserves (q : QuranData) (s : RecitationSession) :
    (buildSlidingWindows q s).suraIndex = s.suraIndex ∧
    (buildSlidingWindows q s).currentPosition = s.currentPosition ∧
    (buildSlidingWindows q s).windowSize = s.windowSize ∧
    (buildSlidingWindows q s).confidenceThreshold = s.confidenceThreshold ∧
    (buildSlidingWindows q s).sessionHistory = s.sessionHistory ∧
    (buildSlidingWindows q s).lastSuccessfulMatch = s.lastSuccessfulMatch ∧
    (buildSlidingWindows q s).consecutiveFailures = s.consecutiveFailures ∧
    (buildSlidingWindows q s).isActive = s.isActive := by
  unfold buildSlidingWindows
  cases q.suras.find? (fun su => su.index == s.suraIndex) with
  | none => exact ⟨rfl, rfl, rfl, rfl, rfl, rfl, rfl, rfl⟩
  | some sura => exact ⟨rfl, rfl, rfl, rfl, rfl, rfl, rfl, rfl⟩

theorem buildSlidingWindows_windows {q : QuranData} {s : RecitationSession} {sura : Sura}
    (hsura : q.suras.find? (fun su => su.index == s.suraIndex) = some sura) :
    (buildSlidingWindows q s).slidingWindows =
      windowsFor sura s.currentPosition s.windowSize := by
  unfold buildSlidingWindows
  rw [hsura]

theorem handleConsecutiveFailures_eq (q : QuranData) (s : RecitationSession) :
    handleConsecutiveFailures q s = buildSlidingWindows q
      { s with
        confidenceThreshold := max 0.5 (s.confidenceThreshold - 0.1)
        windowSize := min 5 (s.windowSize + 1)
        currentPosition :=
          match s.lastSuccessfulMatch with
          | some m => m.startAyah
          | none => 1 } := rfl

/-- C1: on an active session, when the utterance is non-empty after
normalization and its scoring yields at least one accepted candidate,
`processAudioChunk` returns the top-ranked candidate, records it as
`lastSuccessfulMatch`, appends it to the history, sets `currentPosition`
just past the matched span, resets `consecutiveFailures` to 0, and
rebuilds the sliding windows around the new position. -/
theorem processAudioChunk_match (q : QuranData) (s : RecitationSession) (t : List Char)
    (sura : Sura) (m : MatchResult) (ms : List MatchResult)
    (hact : s.isActive = true)
    (hne : tokenizeChars (normalizeChars t) ≠ [])
    (hsura : q.suras.find? (fun su => su.index == s.suraIndex) = some sura)
    (hranked : rankedCandidates s (tokenizeChars (normalizeChars t)) = m :: ms) :
    ∃ s', processAudioChunk q (some s) t = (some s', some m) ∧
      s'.lastSuccessfulMatch = some m ∧
      s'.sessionHistory = s.sessionHistory ++ [m] ∧
      s'.currentPosition = m.endAyah + 1 ∧
      s'.consecutiveFailures = 0 ∧
      s'.slidingWindows = windowsFor sura (m.endAyah + 1) s.windowSize := by
  have hem : (tokenizeChars (normalizeChars t)).isEmpty = false := by
    cases htok : tokenizeChars (normalizeChars t) with
    | nil => exact absurd htok hne
    | cons a b => rfl
  refine ⟨buildSlidingWindows q
    { s with
      lastSuccessfulMatch := some m
      currentPosition := m.endAyah + 1
      consecutiveFailures := 0
      sessionHistory := s.sessionHistory ++ [m] }, ?_, ?_, ?_, ?_, ?_, ?_⟩
  · simp only [processAudioChunk, hact, Bool.not_true, Bool.false_eq_true, if_false, hem,
      hranked]
  · exact ((buildSlidingWindows_preserves q _).2.2.2.2.2.1).trans rfl
  · exact ((buildSlidingWindows_preserves q _).2.2.2.2.1).trans rfl
  · exact ((buildSlidingWindows_preserves q _).2.1).trans rfl
  · exact ((buildSlidingWindows_preserves q _).2.2.2.2.2.2.1).trans rfl
  · exact (@buildSlidingWindows_windows q
      { s with
        lastSuccessfulMatch := some m
        currentPosition := m.endAyah + 1
        consecutiveFailures := 0
        sessionHistory := s.sessionHistory ++ [m] } sura hsura).trans rfl

/-- C2: on an active session, an utterance with no accepted candidate
returns no match and increments `consecutiveFailures` by exactly one; it
leaves everything else untouched while the incremented count is below 3,
and exactly from 3 on it triggers recovery: threshold lowered by 0.1
(floored at 0.5), window size widened by 1 (capped at 5), position reset
to the last successful match's start verse (verse 1 if none), windows
rebuilt. -/
theorem processAudioChunk_noMatch (q : QuranData) (s : RecitationSession) (t : List Char)
    (sura : Sura)
    (hact : s.isActive = true)
    (hne : tokenizeChars (normalizeChars t) ≠ [])
    (hsura : q.suras.find? (fun su => su.index == s.suraIndex) = some sura)
    (hranked : rankedCandidates s (tokenizeChars (normalizeChars t)) = []) :
    ∃ s', processAudioChunk q (some s) t = (some s', none) ∧
      s'.consecutiveFailures = s.consecutiveFailures + 1 ∧
      (s.consecutiveFailures + 1 < 3 →
        s' = { s with consecutiveFailures := s.consecutiveFailures + 1 }) ∧
      (3 ≤ s.consecutiveFailures + 1 →
        s'.confidenceThreshold = max 0.5 (s.confidenceThreshold - 0.1) ∧
        s'.windowSize = min 5 (s.windowSize + 1) ∧
        s'.currentPosition = (match s.lastSuccessfulMatch with
          | some prev => prev.startAyah
          | none => 1) ∧
        s'.slidingWindows = windowsFor sura s'.currentPosition s'.windowSize) := by
  have hem : (tokenizeChars (normalizeChars t)).isEmpty = false := by
    cases htok : tokenizeChars (normalizeChars t) with
    | nil => exact absurd htok hne
    | cons a b => rfl
  by_cases hfail : 3 ≤ s.consecutiveFailures + 1
  · refine ⟨handleConsecutiveFailures q
      { s with consecutiveFailures := s.consecutiveFailures + 1 }, ?_, ?_, ?_, ?_⟩
    · simp only [processAudioChunk, hact, Bool.not_true, Bool.false_eq_true, if_false, hem,
        hranked]
      rw [if_pos hfail]
    · exact ((buildSlidingWindows_preserves q _).2.2.2.2.2.2.1).trans rfl
    · intro h
      omega
    · intro _
      rw [handleConsecutiveFailures_eq]
      refine ⟨((buildSlidingWindows_preserves q _).2.2.2.1).trans rfl,
        ((buildSlidingWindows_preserves q _).2.2.1).trans rfl,
        ((buildSlidingWindows_preserves q _).2.1).trans rfl, ?_⟩
      rw [(buildSlidingWindows_preserves q _).2.1, (buildSlidingWindows_preserves q _).2.2.1]
      exact @buildSlidingWindows_windows q _ sura hsura
  · refine ⟨{ s with consecutiveFailures := s.consecutiveFailures + 1 }, ?_, rfl,
      fun _ => rfl, fun h => absurd h hfail⟩
    simp only [processAudioChunk, hact, Bool.not_true, Bool.false_eq_true, if_false, hem,
      hranked]
    rw [if_neg hfail]

theorem tokenizeAux_all_ws :
    ∀ (l : List Char), (∀ c ∈ l, isJsWs c = true) → tokenizeAux l [] = [] := by
  intro l
  induction l with
  | nil => intro _; rfl
  | cons c cs ih =>
    intro h
    unfold tokenizeAux
    rw [if_pos (h c (List.mem_cons_self c cs))]
    exact ih (fun d hd => h d (List.mem_cons_of_mem c hd))

theorem tokenizeChars_all_ws (l : List Char) (h : ∀ c ∈ l, isJsWs c = true) :
    tokenizeChars l = [] := tokenizeAux_all_ws l h

/-- C8: `initializeSession` fails with an error iff the requested sura is
absent from the corpus; and `processAudioChunk` on a missing session, an
inactive session, or an utterance that is empty or whitespace-only after
normalization returns no match and leaves the session state unchanged (in
particular `consecutiveFailures` is not incremented). -/
theorem errorHandling_spec (q : QuranData) :
    (∀ suraIndex startingAyah windowSize : Nat,
      (∃ e, initializeSession q suraIndex startingAyah windowSize = .error e) ↔
        q.suras.find? (fun su => su.index == suraIndex) = none) ∧
    (∀ t, processAudioChunk q none t = (none, none)) ∧
    (∀ s t, s.isActive = false → processAudioChunk q (some s) t = (some s, none)) ∧
    (∀ s t, s.isActive = true → (∀ c ∈ normalizeChars t, isJsWs c = true) →
      processAudioChunk q (some s) t = (some s, none)) := by
  refine ⟨?_, fun t => rfl, ?_, ?_⟩
  · intro suraIndex startingAyah windowSize
    unfold initializeSession
    cases hfind : q.suras.find? (fun su => su.index == suraIndex) with
    | none => exact ⟨fun _ => rfl, fun _ => ⟨_, rfl⟩⟩
    | some sura =>
      constructor
      · rintro ⟨e, he⟩
        exact absurd he (by simp)
      · intro h
        exact absurd h (by simp)
  · intro s t hinact
    simp only [processAudioChunk, hinact, Bool.not_false, if_true]
  · intro s t hact hws
    have hz : tokenizeChars (normalizeChars t) = [] := tokenizeChars_all_ws _ hws
    simp only [processAudioChunk, hact, Bool.not_true, Bool.false_eq_true, if_false, hz,
      List.isEmpty_nil, if_true]

/-- C9: `jumpToPosition(n)` sets `currentPosition` to `n`, resets
`consecutiveFailures` to 0 and `confidenceThreshold` to 0.7 regardless of
the prior state, and rebuilds the sliding windows at the new position. -/
theorem jumpToPosition_spec (q : QuranData) (s : RecitationSession) (n : Nat) (sura : Sura)
    (hsura : q.suras.find? (fun su => su.index == s.suraIndex) = some sura) :
    (jumpToPosition q s n).currentPosition = n ∧
    (jumpToPosition q s n).consecutiveFailures = 0 ∧
    (jumpToPosition q s n).confidenceThreshold = 0.7 ∧
    (jumpToPosition q s n).slidingWindows = windowsFor sura n s.windowSize := by
  unfold jumpToPosition
  refine ⟨((buildSlidingWindows_preserves q _).2.1).trans rfl,
    ((buildSlidingWindows_preserves q _).2.2.2.2.2.2.1).trans rfl,
    ((buildSlidingWindows_preserves q _).2.2.2.1).trans rfl, ?_⟩
  exact (@buildSlidingWindows_windows q
    { s with
      currentPosition := n
      consecutiveFailures := 0
      confidenceThreshold := 0.7 } sura hsura).trans rfl

theorem processAudioChunk_threshold (q : QuranData) (s s' : RecitationSession) (t : List Char)
    (r : Option MatchResult) (h : processAudioChunk q (some s) t = (some s', r)) :
    s'.confidenceThreshold = s.confidenceThreshold ∨
      s'.confidenceThreshold = max 0.5 (s.confidenceThreshold - 0.1) := by
  simp only [processAudioChunk] at h
  split at h
  · rw [Prod.mk.injEq, Option.some.injEq] at h
    obtain ⟨rfl, -⟩ := h
    exact Or.inl rfl
  · split at h
    · rw [Prod.mk.injEq, Option.some.injEq] at h
      obtain ⟨rfl, -⟩ := h
      exact Or.inl rfl
    · split at h
      · rw [Prod.mk.injEq, Option.some.injEq] at h
        obtain ⟨h1, -⟩ := h
        rw [← h1]
        exact Or.inl (((buildSlidingWindows_preserves q _).2.2.2.1).trans rfl)
      · split at h
        · rw [Prod.mk.injEq, Option.some.injEq] at h
          obtain ⟨h1, -⟩ := h
          rw [← h1, handleConsecutiveFailures_eq]
          exact Or.inr (((buildSlidingWindows_preserves q _).2.2.2.1).trans rfl)
        · rw [Prod.mk.injEq, Option.some.injEq] at h
          obtain ⟨h1, -⟩ := h
          rw [← h1]
          exact Or.inl rfl

/-- C10: every reachable session state keeps `confidenceThreshold` in the
closed interval [0.5, 0.7]: it starts at 0.7, recovery only replaces it by
`max 0.5 (threshold - 0.1)`, and jump/reset restore exactly 0.7. -/
theorem confidenceThreshold_invariant (q : QuranData) (s : RecitationSession)
    (h : Reach q s) :
    (0.5 : ℚ) ≤ s.confidenceThreshold ∧ s.confidenceThreshold ≤ 0.7 := by
  induction h with
  | init hinit =>
    rename_i suraIndex startingAyah windowSize s0
    unfold initializeSession at hinit
    cases hfind : List.find? (fun su => su.index == suraIndex) q.suras with
    | none =>
      rw [hfind] at hinit
      exact absurd hinit (by simp)
    | some sura =>
      rw [hfind] at hinit
      rw [Except.ok.injEq] at hinit
      rw [← hinit, ((buildSlidingWindows_preserves q _).2.2.2.1).trans rfl]
      norm_num
  | step _ hstep ih =>
    rcases processAudioChunk_threshold _ _ _ _ _ hstep with h' | h'
    · rw [h']
      exact ih
    · rw [h']
      constructor
      · exact le_max_left _ _
      · apply max_le (by norm_num)
        have := ih.2
        linarith
  | jump n _ _ =>
    rename_i s0 hreach ih
    have hth : (jumpToPosition q s0 n).confidenceThreshold = 0.7 := by
      unfold jumpToPosition
      exact ((buildSlidingWindows_preserves q _).2.2.2.1).trans rfl
    rw [hth]
    norm_num
  | reset _ _ =>
    rename_i s0 hreach ih
    have hth : (resetSession s0).confidenceThreshold = 0.7 := rfl
    rw [hth]
    norm_num

theorem rankLe_trans (a b c : MatchResult) :
    rankLe a b → rankLe b c → rankLe a c := by
  unfold rankLe
  simp only [decide_eq_true_eq]
  intro h1 h2
  exact le_trans h2 h1

theorem rankLe_total (a b : MatchResult) : rankLe a b || rankLe b a := by
  unfold rankLe
  rcases le_total (rankKey a) (rankKey b) with h | h <;> simp [h]

theorem candidateScores_windowIndex_le (th : ℚ) (tw : List (List Char)) :
    ∀ (ws : List AyahWindow) (i0 : Nat), ∀ r ∈ candidateScores th tw i0 ws,
      i0 ≤ r.windowIndex := by
  intro ws
  induction ws with
  | nil => intro i0 r hr; simp [candidateScores] at hr
  | cons w rest ih =>
    intro i0 r hr
    unfold candidateScores at hr
    by_cases hc : th ≤ (scoreWindow tw w).confidence
    · rw [if_pos hc] at hr
      rcases List.mem_cons.mp hr with hr' | hr'
      · rw [hr']
        exact Nat.le_refl _
      · exact Nat.le_of_succ_le (ih (i0 + 1) r hr')
    · rw [if_neg hc] at hr
      exact Nat.le_of_succ_le (ih (i0 + 1) r hr)

theorem candidateScores_pairwise (th : ℚ) (tw : List (List Char)) :
    ∀ (ws : List AyahWindow) (i0 : Nat),
      (candidateScores th tw i0 ws).Pairwise (fun a b => a.windowIndex < b.windowIndex) := by
  intro ws
  induction ws with
  | nil => intro i0; simp [candidateScores]
  | cons w rest ih =>
    intro i0
    unfold candidateScores
    by_cases hc : th ≤ (scoreWindow tw w).confidence
    · rw [if_pos hc]
      refine List.pairwise_cons.mpr ⟨?_, ih (i0 + 1)⟩
      intro r hr
      have := candidateScores_windowIndex_le th tw rest (i0 + 1) r hr
      simp only [mkCandidate]
      omega
    · rw [if_neg hc]
      exact ih (i0 + 1)

theorem mem_candidateScores (th : ℚ) (tw : List (List Char)) :
    ∀ (ws : List AyahWindow) (i0 : Nat) (r : MatchResult),
      r ∈ candidateScores th tw i0 ws ↔
        ∃ j, ∃ h : j < ws.length,
          th ≤ (scoreWindow tw (ws.get ⟨j, h⟩)).confidence ∧
          r = mkCandidate (i0 + j) (ws.get ⟨j, h⟩) (scoreWindow tw (ws.get ⟨j, h⟩)) := by
  intro ws
  induction ws with
  | nil =>
    intro i0 r
    simp [candidateScores]
  | cons w rest ih =>
    intro i0 r
    simp only [List.get_eq_getElem]
    unfold candidateScores
    constructor
    · intro hr
      by_cases hc : th ≤ (scoreWindow tw w).confidence
      · rw [if_pos hc] at hr
        rcases List.mem_cons.mp hr with hr' | hr'
        · exact ⟨0, by simp, by simpa using hc, by simpa using hr'⟩
        · obtain ⟨j, hj, hth, hreq⟩ := (ih (i0 + 1) r).mp hr'
          refine ⟨j + 1, by simpa using hj, by simpa using hth, ?_⟩
          rw [hreq]
          simp only [List.getElem_cons_succ]
          congr 1
          omega
      · rw [if_neg hc] at hr
        obtain ⟨j, hj, hth, hreq⟩ := (ih (i0 + 1) r).mp hr
        refine ⟨j + 1, by simpa using hj, by simpa using hth, ?_⟩
        rw [hreq]
        simp only [List.getElem_cons_succ]
        congr 1
        omega
    · rintro ⟨j, hj, hth, rfl⟩
      cases j with
      | zero =>
        simp only [List.getElem_cons_zero] at hth ⊢
        rw [if_pos hth]
        exact List.mem_cons_self _ _
      | succ j =>
        simp only [List.getElem_cons_succ] at hth ⊢
        have hjr : j < rest.length := by simpa using hj
        have hmem : mkCandidate (i0 + 1 + j) rest[j]
            (scoreWindow tw rest[j]) ∈
            candidateScores th tw (i0 + 1) rest := by
          refine (ih (i0 + 1) _).mpr ⟨j, hjr, by simpa using hth, ?_⟩
          simp only [List.get_eq_getElem]
        have harith : i0 + (j + 1) = i0 + 1 + j := by omega
        rw [harith]
        by_cases hc : th ≤ (scoreWindow tw w).confidence
        · rw [if_pos hc]
          exact List.mem_cons_of_mem _ hmem
        · rw [if_neg hc]
          exact hmem

theorem pair_sublist_of_pairwise_lt {l : List MatchResult}
    (hp : l.Pairwise (fun a b => a.windowIndex < b.windowIndex)) {a b : MatchResult}
    (ha : a ∈ l) (hb : b ∈ l) (hab : a.windowIndex < b.windowIndex) : List.Sublist [a, b] l := by
  induction l with
  | nil => simp at ha
  | cons x xs ih =>
    obtain ⟨hx, hp'⟩ := List.pairwise_cons.mp hp
    rcases List.mem_cons.mp ha with rfl | ha'
    · rcases List.mem_cons.mp hb with rfl | hb'
      · omega
      · exact List.Sublist.cons₂ a (List.singleton_sublist.mpr hb')
    · rcases List.mem_cons.mp hb with rfl | hb'
      · exact absurd (hx a ha') (by omega)
      · exact List.Sublist.cons x (ih hp' ha' hb')

theorem rankedCandidates_head (s : RecitationSession) (tw : List (List Char))
    (m : MatchResult) (ms : List MatchResult)
    (h : rankedCandidates s tw = m :: ms) :
    m ∈ candidateScores s.confidenceThreshold tw 0 s.slidingWindows ∧
    (∀ r ∈ candidateScores s.confidenceThreshold tw 0 s.slidingWindows,
      rankKey r ≤ rankKey m) ∧
    (∀ r ∈ candidateScores s.confidenceThreshold tw 0 s.slidingWindows,
      rankKey r = rankKey m → m.windowIndex ≤ r.windowIndex) := by
  have hpw := candidateScores_pairwise s.confidenceThreshold tw s.slidingWindows 0
  have hnodup : (candidateScores s.confidenceThreshold tw 0 s.slidingWindows).Nodup :=
    hpw.imp (fun hab => by intro hcontr; rw [hcontr] at hab; omega)
  have hperm := List.mergeSort_perm
    (candidateScores s.confidenceThreshold tw 0 s.slidingWindows) rankLe
  have hsorted := List.sorted_mergeSort rankLe_trans rankLe_total
    (candidateScores s.confidenceThreshold tw 0 s.slidingWindows)
  rw [show (candidateScores s.confidenceThreshold tw 0 s.slidingWindows).mergeSort rankLe =
      rankedCandidates s tw from rfl, h] at hperm hsorted
  obtain ⟨hm, hms⟩ := List.pairwise_cons.mp hsorted
  have hmem : m ∈ candidateScores s.confidenceThreshold tw 0 s.slidingWindows :=
    hperm.subset (List.mem_cons_self m ms)
  refine ⟨hmem, ?_, ?_⟩
  · intro r hr
    have hr' : r ∈ m :: ms := hperm.symm.subset hr
    rcases List.mem_cons.mp hr' with rfl | hr''
    · exact le_refl _
    · have := hm r hr''
      unfold rankLe at this
      exact of_decide_eq_true this
  · intro r hr hkey
    by_contra hcontr
    push_neg at hcontr
    have hsub : List.Sublist [r, m] (candidateScores s.confidenceThreshold tw 0 s.slidingWindows) :=
      pair_sublist_of_pairwise_lt hpw hr hmem hcontr
    have hpair : rankLe r m := by
      unfold rankLe
      rw [hkey]
      exact decide_eq_true (le_refl _)
    have hsub2 : List.Sublist [r, m] (m :: ms) := by
      have := List.pair_sublist_mergeSort rankLe_trans rankLe_total hpair hsub
      rwa [show (candidateScores s.confidenceThreshold tw 0 s.slidingWindows).mergeSort
        rankLe = rankedCandidates s tw from rfl, h] at this
    have hnodup2 : (m :: ms).Nodup := hperm.symm.nodup hnodup
    cases hsub2 with
    | cons _ htail =>
      have : m ∈ ms := htail.subset (by simp)
      exact (List.nodup_cons.mp hnodup2).1 this
    | cons₂ _ htail =>
      omega

/-- C3: `scoreWindow` combines the three metrics with weights 0.5, 0.3 and
0.2 into the confidence; the scoring loop accepts a window as a candidate
iff its confidence reaches the session threshold; the ranking key is
`0.4 confidence + 0.4 accuracy + 0.2 alignmentScore`, and the returned
head of the ranking maximizes it, with ties resolved in favor of the
window generated first (smallest window index). -/
theorem scoring_spec (s : RecitationSession) (tw : List (List Char)) :
    (∀ w : AyahWindow, (scoreWindow tw w).confidence =
      0.5 * calculateSequenceMatch tw w.words + 0.3 * calculateWordOverlap tw w.words +
        0.2 * calculateEditScore tw w.words) ∧
    (∀ r : MatchResult, rankKey r =
      0.4 * r.confidence + 0.4 * r.accuracy + 0.2 * r.alignmentScore) ∧
    (∀ r : MatchResult, r ∈ candidateScores s.confidenceThreshold tw 0 s.slidingWindows ↔
      ∃ j, ∃ h : j < s.slidingWindows.length,
        s.confidenceThreshold ≤
          (scoreWindow tw (s.slidingWindows.get ⟨j, h⟩)).confidence ∧
        r = mkCandidate j (s.slidingWindows.get ⟨j, h⟩)
          (scoreWindow tw (s.slidingWindows.get ⟨j, h⟩))) ∧
    (∀ m ms, rankedCandidates s tw = m :: ms →
      m ∈ candidateScores s.confidenceThreshold tw 0 s.slidingWindows ∧
      (∀ r ∈ candidateScores s.confidenceThreshold tw 0 s.slidingWindows,
        rankKey r ≤ rankKey m) ∧
      (∀ r ∈ candidateScores s.confidenceThreshold tw 0 s.slidingWindows,
        rankKey r = rankKey m → m.windowIndex ≤ r.windowIndex)) := by
  refine ⟨?_, ?_, ?_, ?_⟩
  · intro w
    unfold scoreWindow
    ring
  · intro r
    unfold rankKey
    ring
  · intro r
    have := mem_candidateScores s.confidenceThreshold tw s.slidingWindows 0 r
    simpa using this
  · intro m ms h
    exact rankedCandidates_head s tw m ms h

theorem initializeSession_quranOne : initializeSession quranOne 1 1 3 = .ok sessionOne := rfl

theorem windowsFor_spec_witness :
    ∃ w ∈ windowsFor suraOne 1 3, w.startAyah = 1 ∧ w.endAyah = 1 :=
  ((windowsFor_spec suraOne 1 3 (by
    intro k h
    simp only [suraOne, List.length_cons, List.length_nil] at h
    have hk : k = 0 := by omega
    subst hk
    rfl)).1 1 1).mpr (by decide)

theorem selfScore_perfect_witness :
    calculateSequenceMatch (tokenizeChars (normalizeChars "اب".data))
        (tokenizeChars (normalizeChars "اب".data)) = 1 ∧
      (scoreWindow (tokenizeChars (normalizeChars "اب".data))
        { startAyah := 1
          endAyah := 1
          text := "اب".data
          normalizedText := normalizeChars "اب".data
          words := tokenizeChars (normalizeChars "اب".data) }).accuracy = 1 :=
  selfScore_perfect "اب".data
    { startAyah := 1
      endAyah := 1
      text := "اب".data
      normalizedText := normalizeChars "اب".data
      words := tokenizeChars (normalizeChars "اب".data) } rfl (by decide)

theorem errorHandling_spec_witness :
    (∃ e, initializeSession quranOne 2 1 3 = .error e) ∧
    processAudioChunk quranOne none "اب".data = (none, none) ∧
    processAudioChunk quranOne (some { sessionOne with isActive := false }) "اب".data =
      (some { sessionOne with isActive := false }, none) ∧
    processAudioChunk quranOne (some sessionOne) " ".data = (some sessionOne, none) := by
  have h := errorHandling_spec quranOne
  exact ⟨(h.1 2 1 3).mpr rfl, h.2.1 _, h.2.2.1 _ _ rfl, h.2.2.2 _ _ rfl (by decide)⟩

theorem jumpToPosition_spec_witness :
    (jumpToPosition quranOne sessionOne 2).currentPosition = 2 ∧
    (jumpToPosition quranOne sessionOne 2).consecutiveFailures = 0 ∧
    (jumpToPosition quranOne sessionOne 2).confidenceThreshold = 0.7 ∧
    (jumpToPosition quranOne sessionOne 2).slidingWindows = windowsFor suraOne 2 3 :=
  jumpToPosition_spec quranOne sessionOne 2 suraOne rfl

theorem confidenceThreshold_invariant_witness :
    (0.5 : ℚ) ≤ sessionOne.confidenceThreshold ∧ sessionOne.confidenceThreshold ≤ 0.7 :=
  confidenceThreshold_invariant quranOne sessionOne (Reach.init initializeSession_quranOne)

theorem windowsFor_suraOne_eq : windowsFor suraOne 1 3 = [windowOne] := by decide

theorem windowOne_words : windowOne.words = [['ا', 'ب']] := by decide

theorem scoreWindow_windowOne :
    scoreWindow [['ا', 'ب']] windowOne = scoreOne := by
  have hlcs : longestCommonSubsequence [['ا', 'ب']] [['ا', 'ب']] = [['ا', 'ب']] := by decide
  have hjoin : joinWords [['ا', 'ب']] = ['ا', 'ب'] := by decide
  have hlev : levenshteinDistance ['ا', 'ب'] ['ا', 'ب'] = 0 := by decide
  have hded : ([['ا', 'ب']] : List (List Char)).dedup = [['ا', 'ب']] := by decide
  have hm : arabicWordMatch ['ا', 'ب'] ['ا', 'ب'] = true := by decide
  have hcont : ([['ا', 'ب']] : List (List Char)).contains ['ا', 'ب'] = true := by decide
  unfold scoreWindow
  rw [windowOne_words]
  unfold calculateSequenceMatch calculateWordOverlap calculateEditScore
    calculateAlignmentScore
  simp only []
  rw [hlcs, hjoin, hlev, hded]
  norm_num [hm, hcont, jsRound, scoreOne, List.range_succ, List.range_zero]

theorem candidateScores_sessionOne :
    candidateScores 0.7 [['ا', 'ب']] 0 [windowOne] = [matchOne] := by
  unfold candidateScores
  rw [scoreWindow_windowOne]
  simp only []
  rw [if_pos (show (0.7 : ℚ) ≤ scoreOne.confidence from by norm_num [scoreOne])]
  rfl

theorem rankedCandidates_sessionOne :
    rankedCandidates sessionOne [['ا', 'ب']] = [matchOne] := by
  have hwin : sessionOne.slidingWindows = [windowOne] := windowsFor_suraOne_eq
  have hth : sessionOne.confidenceThreshold = 0.7 := rfl
  unfold rankedCandidates
  rw [hwin, hth, candidateScores_sessionOne]
  exact List.mergeSort_singleton matchOne

theorem processAudioChunk_match_witness :
    ∃ s', processAudioChunk quranOne (some sessionOne) "اب".data = (some s', some matchOne) ∧
      s'.lastSuccessfulMatch = some matchOne ∧
      s'.sessionHistory = sessionOne.sessionHistory ++ [matchOne] ∧
      s'.currentPosition = matchOne.endAyah + 1 ∧
      s'.consecutiveFailures = 0 ∧
      s'.slidingWindows = windowsFor suraOne (matchOne.endAyah + 1) sessionOne.windowSize := by
  have htw : tokenizeChars (normalizeChars "اب".data) = [['ا', 'ب']] := by decide
  exact processAudioChunk_match quranOne sessionOne "اب".data suraOne matchOne []
    rfl (by decide) rfl (by rw [htw]; exact rankedCandidates_sessionOne)

theorem scoreWindow_garbage :
    scoreWindow [['x', 'y']] windowOne = scoreZero := by
  have hlcs : longestCommonSubsequence [['x', 'y']] [['ا', 'ب']] = [] := by decide
  have hjoinx : joinWords [['x', 'y']] = ['x', 'y'] := by decide
  have hjoina : joinWords [['ا', 'ب']] = ['ا', 'ب'] := by decide
  have hlev : levenshteinDistance ['x', 'y'] ['ا', 'ب'] = 2 := by decide
  have hdedx : ([['x', 'y']] : List (List Char)).dedup = [['x', 'y']] := by decide
  have hdeda : ([['ا', 'ب']] : List (List Char)).dedup = [['ا', 'ب']] := by decide
  have hm : arabicWordMatch ['x', 'y'] ['ا', 'ب'] = false := by decide
  have hcont : ([['ا', 'ب']] : List (List Char)).contains ['x', 'y'] = false := by decide
  unfold scoreWindow
  rw [windowOne_words]
  unfold calculateSequenceMatch calculateWordOverlap calculateEditScore
    calculateAlignmentScore
  simp only []
  rw [hlcs, hjoinx, hjoina, hlev, hdedx, hdeda]
  norm_num [hm, hcont, jsRound, scoreZero, List.range_succ, List.range_zero]
  all_goals decide

theorem rankedCandidates_sessionTwo :
    rankedCandidates sessionTwo [['x', 'y']] = [] := by
  have hwin : sessionTwo.slidingWindows = [windowOne] := windowsFor_suraOne_eq
  have hth : sessionTwo.confidenceThreshold = 0.7 := rfl
  unfold rankedCandidates
  rw [hwin, hth]
  have hcand : candidateScores 0.7 [['x', 'y']] 0 [windowOne] = [] := by
    unfold candidateScores
    rw [scoreWindow_garbage]
    simp only []
    rw [if_neg (show ¬((0.7 : ℚ) ≤ scoreZero.confidence) from by norm_num [scoreZero])]
    rfl
  rw [hcand]
  exact List.mergeSort_nil

theorem processAudioChunk_noMatch_witness :
    ∃ s', processAudioChunk quranOne (some sessionTwo) "xy".data = (some s', none) ∧
      s'.consecutiveFailures = sessionTwo.consecutiveFailures + 1 ∧
      (sessionTwo.consecutiveFailures + 1 < 3 →
        s' = { sessionTwo with consecutiveFailures := sessionTwo.consecutiveFailures + 1 }) ∧
      (3 ≤ sessionTwo.consecutiveFailures + 1 →
        s'.confidenceThreshold = max 0.5 (sessionTwo.confidenceThreshold - 0.1) ∧
        s'.windowSize = min 5 (sessionTwo.windowSize + 1) ∧
        s'.currentPosition = (match sessionTwo.lastSuccessfulMatch with
          | some prev => prev.startAyah
          | none => 1) ∧
        s'.slidingWindows = windowsFor suraOne s'.currentPosition s'.windowSize) := by
  have htw : tokenizeChars (normalizeChars "xy".data) = [['x', 'y']] := by decide
  exact processAudioChunk_noMatch quranOne sessionTwo "xy".data suraOne
    rfl (by decide) rfl (by rw [htw]; exact rankedCandidates_sessionTwo)

theorem scoring_spec_witness :
    ((scoreWindow [['ا', 'ب']] windowOne).confidence =
      0.5 * calculateSequenceMatch [['ا', 'ب']] windowOne.words +
        0.3 * calculateWordOverlap [['ا', 'ب']] windowOne.words +
        0.2 * calculateEditScore [['ا', 'ب']] windowOne.words) ∧
    (matchOne ∈
      candidateScores sessionOne.confidenceThreshold [['ا', 'ب']] 0 sessionOne.slidingWindows ∧
      (∀ r ∈ candidateScores sessionOne.confidenceThreshold [['ا', 'ب']] 0
        sessionOne.slidingWindows, rankKey r ≤ rankKey matchOne) ∧
      (∀ r ∈ candidateScores sessionOne.confidenceThreshold [['ا', 'ب']] 0
        sessionOne.slidingWindows,
        rankKey r = rankKey matchOne → matchOne.windowIndex ≤ r.windowIndex)) := by
  have h := scoring_spec sessionOne [['ا', 'ب']]
  exact ⟨h.1 windowOne, h.2.2.2 matchOne [] rankedCandidates_sessionOne⟩

end Hafez
